import Mathlib

/-
  Shallow embedding of src/src/caffe/layers/densecrf_layer.cpp
  (class DenseCRFLayer).  Machine floats are modelled as real numbers;
  flat C arrays are modelled as total functions Nat → ℝ (or a generic
  linearly ordered type, matching the Dtype template parameter);
  fatal CHECK failures and out-of-bounds vector accesses are modelled
  by Option with none for the aborted computation.
-/

namespace DenseCRF

/-- A Caffe blob, reduced to the shape fields the layer reads
(num, channels, height, width).  Data contents are passed separately
as flat index functions where the layer reads them. -/
structure Blob where
  num : Nat
  channels : Nat
  height : Nat
  width : Nat
deriving DecidableEq

/-- The DenseCRFParameter configuration message: max_iter and the five
kernel-parameter lists (lines 19-51 copy them into the layer). -/
structure DenseCRFParam where
  maxIter : Nat
  posW : List ℝ
  posXyStd : List ℝ
  biW : List ℝ
  biXyStd : List ℝ
  biRgbStd : List ℝ

/-- The mutable member state of DenseCRFLayer that the control flow of
LayerSetUp / Reshape / Forward_cpu reads and writes: the copied kernel
parameter lists, has_image, the buffer capacities unary_element_ and
map_element_, and the per-batch / per-image dimension fields
num_, M_, pad_height_, pad_width_, H_, W_. -/
structure CRFState where
  maxIter : Nat
  posW : List ℝ
  posXyStd : List ℝ
  biW : List ℝ
  biXyStd : List ℝ
  biRgbStd : List ℝ
  hasImage : Bool
  unaryElement : Nat
  mapElement : Nat
  num : Nat
  M : Nat
  padH : Nat
  padW : Nat
  H : Nat
  W : Nat

/-- DenseCRFLayer::LayerSetUp (lines 16-80).  Copies the parameter lists,
checks the three list-length equalities (lines 53-58) and
bottom.size() >= 2 (line 60); with at most two bottoms it records
has_image := false (line 64), otherwise it requires a nonempty bilateral
weight list and a 3-channel third bottom (lines 66-70).  Lines 73-78
zero the capacities and null the buffers.  The C++ members
num_, M_, pad_height_, pad_width_, H_, W_ are left uninitialized there;
they are modelled as 0 and are overwritten before use. -/
def layerSetUp (p : DenseCRFParam) (bottom : List Blob) : Option CRFState :=
  if p.posW.length = p.posXyStd.length ∧
     p.biW.length = p.biXyStd.length ∧
     p.biW.length = p.biRgbStd.length ∧
     2 ≤ bottom.length then
    if bottom.length ≤ 2 then
      some { maxIter := p.maxIter, posW := p.posW, posXyStd := p.posXyStd,
             biW := p.biW, biXyStd := p.biXyStd, biRgbStd := p.biRgbStd,
             hasImage := false, unaryElement := 0, mapElement := 0,
             num := 0, M := 0, padH := 0, padW := 0, H := 0, W := 0 }
    else
      match bottom[2]? with
      | none => none
      | some b2 =>
        if 0 < p.biW.length ∧ b2.channels = 3 then
          some { maxIter := p.maxIter, posW := p.posW, posXyStd := p.posXyStd,
                 biW := p.biW, biXyStd := p.biXyStd, biRgbStd := p.biRgbStd,
                 hasImage := true, unaryElement := 0, mapElement := 0,
                 num := 0, M := 0, padH := 0, padW := 0, H := 0, W := 0 }
        else none
  else none

/-- DenseCRFLayer::Reshape (lines 82-132).  Reads num/channels/height/width
from bottom[0] (lines 92-95), checks bottom[0]->num() = bottom[1]->num()
(line 97) and then unconditionally reads bottom[2]->num() (line 99) -
with fewer than three bottoms that access is out of bounds, modelled as
none.  With has_image it also checks that bottom[2] shares the padded
height and width (lines 102-107).  Lines 109-119 implement the grow-only
capacity policy: if unary_element_ < pad_height_*pad_width_*M_ all four
data arrays are reallocated to exactly that footprint and map_element_
becomes the padded pixel count; otherwise capacities are untouched.
The top/auxiliary blob reshapes (lines 121-131) carry no tracked state. -/
def reshape (st : CRFState) (bottom : List Blob) : Option CRFState :=
  match bottom[0]?, bottom[1]? with
  | some b0, some b1 =>
    if b0.num = b1.num then
      match bottom[2]? with
      | none => none
      | some b2 =>
        if b1.num = b2.num ∧
           (st.hasImage = true → b0.height = b2.height ∧ b0.width = b2.width) then
          let numPixel := b0.height * b0.width
          let cur := numPixel * b0.channels
          if st.unaryElement < cur then
            some { st with num := b0.num, M := b0.channels,
                           padH := b0.height, padW := b0.width,
                           unaryElement := cur, mapElement := numPixel }
          else
            some { st with num := b0.num, M := b0.channels,
                           padH := b0.height, padW := b0.width }
        else none
    else none
  | _, _ => none

/-- One store `buf[iv.1] = iv.2` into a flat array modelled as a
function. -/
def writeCell {α : Type} (f : Nat → α) (iv : Nat × α) : Nat → α :=
  fun j => if j = iv.1 then iv.2 else f j

/-- A sequence of stores executed left to right, as a loop nest does. -/
def writeMany {α : Type} (f : Nat → α) (l : List (Nat × α)) : Nat → α :=
  l.foldl writeCell f

/-- An index no store targets keeps the prior contents. -/
theorem writeMany_not_mem {α : Type} (l : List (Nat × α)) (f : Nat → α)
    (idx : Nat) (h : ∀ p ∈ l, p.1 ≠ idx) : writeMany f l idx = f idx := by
  induction l generalizing f with
  | nil => rfl
  | cons p t ih =>
    have hp : p.1 ≠ idx := h p (List.mem_cons_self p t)
    have ht : ∀ q ∈ t, q.1 ≠ idx := fun q hq => h q (List.mem_cons_of_mem p hq)
    simp only [writeMany, List.foldl_cons] at *
    rw [ih (writeCell f p) ht, writeCell, if_neg (fun hc => hp hc.symm)]

/-- When the targeted indices are pairwise distinct, the store (idx, v)
determines the final contents at idx. -/
theorem writeMany_mem {α : Type} (l : List (Nat × α)) (f : Nat → α)
    (idx : Nat) (v : α) (hnd : (l.map Prod.fst).Nodup)
    (hm : (idx, v) ∈ l) : writeMany f l idx = v := by
  induction l generalizing f with
  | nil => exact absurd hm (List.not_mem_nil _)
  | cons p t ih =>
    simp only [List.map_cons, List.nodup_cons] at hnd
    rcases List.mem_cons.mp hm with h | h
    · subst h
      have hne : ∀ q ∈ t, q.1 ≠ idx := by
        intro q hq hqe
        have hmem : q.1 ∈ List.map Prod.fst t := List.mem_map_of_mem Prod.fst hq
        rw [hqe] at hmem
        exact hnd.1 hmem
      calc writeMany f ((idx, v) :: t) idx
          = writeMany (writeCell f (idx, v)) t idx := rfl
        _ = writeCell f (idx, v) idx := writeMany_not_mem t _ idx hne
        _ = v := if_pos rfl
    · exact ih (writeCell f p) hnd.2 h

/-- Lines 156-169 of Forward_cpu: the effective dimensions H_, W_ for one
image.  If the padded size fits inside the recorded real size in both
directions the image counts as cropped and the padded dimensions are
used; otherwise the real dimensions are used. -/
def effectiveDims (st : CRFState) (realH realW : Nat) : Nat × Nat :=
  if st.padH ≤ realH ∧ st.padW ≤ realW then (st.padH, st.padW) else (realH, realW)

/-- Lines 156-188 of Forward_cpu, per image: compute H_, W_, N_ = W_*H_
and apply CHECK_LE(N_, map_element_) (line 172).  A failing check aborts
(none); otherwise the image is processed with the stored dimensions.
The reallocation block that would grow the buffers mid-batch is
commented out in the source (lines 175-182); Forward never changes the
capacities. -/
def forwardImage (st : CRFState) (realH realW : Nat) : Option CRFState :=
  let hw := effectiveDims st realH realW
  if hw.2 * hw.1 ≤ st.mapElement then
    some { st with H := hw.1, W := hw.2 }
  else none

/-- Lines 409-415 of SetupUnaryEnergy: scale_data[k] starts as the
class-0 plane and is folded with max over the remaining planes.
data is the flat channel-major score tensor of one image,
spatial = pad_height_*pad_width_. -/
noncomputable def scaleMax (M spatial : Nat) (data : Nat → ℝ) (k : Nat) : ℝ :=
  (List.range (M - 1)).foldl (fun a j => max a (data ((j + 1) * spatial + k)))
    (data k)

/-- Lines 417-432 of SetupUnaryEnergy: subtract the per-pixel max
(gemm with the all-ones multiplier), exponentiate (caffe_exp), sum the
planes per pixel (gemv), divide.  norm_data[c*spatial + k] ends as this
softmax probability of class c at padded spatial position k. -/
noncomputable def normProb (M spatial : Nat) (data : Nat → ℝ) (c k : Nat) : ℝ :=
  Real.exp (data (c * spatial + k) - scaleMax M spatial data k) /
    ∑ j ∈ Finset.range M, Real.exp (data (j * spatial + k) - scaleMax M spatial data k)

/-- Lines 434-443 of SetupUnaryEnergy: the write loop, c outer then h, w,
storing -log of the softmax probability at
out_index = (h * pad_width_ + w) * M_ + c into unary_.  unary is the
prior contents of the unary_ buffer (allocate leaves it unspecified). -/
noncomputable def setupUnaryEnergy (M H W padH padW : Nat) (data unary : Nat → ℝ) :
    Nat → ℝ :=
  writeMany unary
    ((List.range M).flatMap fun c =>
      (List.range H).flatMap fun h =>
        (List.range W).map fun w =>
          ((h * padW + w) * M + c,
           -Real.log (normProb M (padH * padW) data c (h * padW + w))))

/-- Lines 226-230 of ExpAndNormalize: mx for pixel i, the max of
scale*b[j] over j < M, seeded with j = 0. -/
noncomputable def pixelMax (M : Nat) (scale : ℝ) (b : Nat → ℝ) (i : Nat) : ℝ :=
  (List.range (M - 1)).foldl (fun a j => max a (scale * b (i * M + (j + 1))))
    (scale * b (i * M))

/-- Lines 231-238 of ExpAndNormalize for pixel i, class j:
V[j] = fast_exp(scale*b[j] - mx) divided by the sum tt of all V.
Modelled from the spec: fast_exp lives in densecrf_util.hpp, which is
not part of this repository snapshot; the spec describes the step as
exponentiation, so it is the real exponential here. -/
noncomputable def normVal (M : Nat) (scale : ℝ) (b : Nat → ℝ) (i j : Nat) : ℝ :=
  Real.exp (scale * b (i * M + j) - pixelMax M scale b i) /
    ∑ k ∈ Finset.range M, Real.exp (scale * b (i * M + k) - pixelMax M scale b i)

/-- DenseCRFLayer::ExpAndNormalize (lines 220-245): for every pixel
i < N the M contiguous cells out[i*M+j] receive the normalized
exponentials of scale*in[i*M+j]; every cell at i*M+j with i < N, j < M
is exactly every flat index below N*M, and cells beyond keep the prior
contents of out. -/
noncomputable def expAndNormalize (M N : Nat) (scale : ℝ) (inp out : Nat → ℝ) :
    Nat → ℝ :=
  fun idx =>
    if idx < N * M then normVal M scale inp (idx / M) (idx % M) else out idx

/-- The opaque pairwise potential.  Modelled from the spec: the class
PottsPotential with its apply(next, current, tmp, M) operation comes
from densecrf_pairwise.hpp, which is not part of this repository
snapshot; the spec specifies only that apply adds a smoothing message
into the accumulator, reading the current marginals and using tmp as
scratch, so it is kept abstract as a function from the accumulator,
the marginals, the scratch and the class count to the new accumulator
and scratch contents. -/
structure Potential where
  apply : (Nat → ℝ) → (Nat → ℝ) → (Nat → ℝ) → Nat → ((Nat → ℝ) × (Nat → ℝ))

/-- The three working buffers current_, next_, tmp_ that the solver
mutates. -/
structure SolverState where
  current : Nat → ℝ
  next : Nat → ℝ
  tmp : Nat → ℝ

/-- DenseCRFLayer::StartInference (lines 247-250):
ExpAndNormalize(current_, unary_, -1.0). -/
noncomputable def startInference (M N : Nat) (unary : Nat → ℝ) (st : SolverState) :
    SolverState :=
  { st with current := expAndNormalize M N (-1) unary st.current }

/-- The scalar unary-negation loop of StepInference (lines 263-264):
next_[i] = -unary_[i] for i < N_*M_. -/
def negUnaryScalar (nm : Nat) (unary next : Nat → ℝ) : Nat → ℝ :=
  fun k => if k < nm then -unary k else next k

/-- The SSE unary-negation loop of StepInference (lines 254-261): the
buffers are reinterpreted as packs of four floats and
sse_next_[i] = -sse_unary_[i] for i < (N_*M_-1)/4+1, i.e. elementwise
negation of the first 4*((N_*M_-1)/4+1) cells.  For nm = 0 the C++
int expression (-1)/4+1 evaluates to 1 and the loop still negates one
pack, which Nat subtraction (0-1 = 0) reproduces. -/
def negUnarySSE (nm : Nat) (unary next : Nat → ℝ) : Nat → ℝ :=
  fun k => if k < 4 * ((nm - 1) / 4 + 1) then -unary k else next k

/-- DenseCRFLayer::StepInference (lines 252-273), scalar build: set
next_ := -unary_ on the first N_*M_ cells, fold every pairwise
potential's apply over (next_, tmp_) in list order, then
ExpAndNormalize(current_, next_, 1.0). -/
noncomputable def stepInference (M N : Nat) (ps : List Potential) (unary : Nat → ℝ)
    (st : SolverState) : SolverState :=
  let n0 := negUnaryScalar (N * M) unary st.next
  let nt := ps.foldl (fun acc p => p.apply acc.1 st.current acc.2 M)
    (n0, st.tmp)
  { current := expAndNormalize M N 1 nt.1 st.current,
    next := nt.1, tmp := nt.2 }

/-- DenseCRFLayer::RunInference (lines 283-290): StartInference, then
max_iter_ unconditional StepInference calls. -/
noncomputable def runInference (M N maxIter : Nat) (ps : List Potential)
    (unary : Nat → ℝ) (st : SolverState) : SolverState :=
  (List.range maxIter).foldl (fun s _ => stepInference M N ps unary s)
    (startInference M N unary st)

/-- Lines 352-358 of SetupPairwiseFunctions: the spatial feature array,
features[(j*W_+i)*2+0] = i/std and features[(j*W_+i)*2+1] = j/std over
the active H_ x W_ grid, as a flat function of the feature index. -/
noncomputable def spatialFeatures (std : ℝ) (W : Nat) : Nat → ℝ :=
  fun idx =>
    let p := idx / 2
    let i := p % W
    let j := p / W
    if idx % 2 = 0 then (i : ℝ) / std else (j : ℝ) / std

/-- Lines 370-387 of SetupPairwiseFunctions: the bilateral feature
array; positions are scaled by xyStd, and the three colour planes of
the reference image im (flat, channel-major over the padded extent,
channel offset pad_height_*pad_width_) are sampled at the padded
row-major offset j*pad_width_+i and scaled by rgbStd. -/
noncomputable def bilateralFeatures (xyStd rgbStd : ℝ) (W padH padW : Nat)
    (im : Nat → ℝ) : Nat → ℝ :=
  fun idx =>
    let p := idx / 5
    let i := p % W
    let j := p / W
    if idx % 5 = 0 then (i : ℝ) / xyStd
    else if idx % 5 = 1 then (j : ℝ) / xyStd
    else if idx % 5 = 2 then im (j * padW + i) / rgbStd
    else if idx % 5 = 3 then im (j * padW + i + padH * padW) / rgbStd
    else im (j * padW + i + 2 * (padH * padW)) / rgbStd

/-- DenseCRFLayer::SetupPairwiseFunctions (lines 346-392), abstracted
over the opaque PottsPotential constructor
build(features, featureDimension, pointCount, weight): one spatial
potential per configured (pos_w, pos_xy_std) pair, then - only when
has_image - one bilateral potential per configured
(bi_w, bi_xy_std, bi_rgb_std) triple, appended in that order. -/
noncomputable def setupPairwiseFunctions {P : Type}
    (build : (Nat → ℝ) → Nat → Nat → ℝ → P) (st : CRFState)
    (im : Nat → ℝ) : List P :=
  ((st.posW.zip st.posXyStd).map fun q =>
    build (spatialFeatures q.2 st.W) 2 (st.W * st.H) q.1) ++
  (if st.hasImage then
    ((st.biW.zip (st.biXyStd.zip st.biRgbStd)).map fun q =>
      build (bilateralFeatures q.2.1 q.2.2 st.W st.padH st.padW im) 5
        (st.W * st.H) q.1)
  else [])

/-- Lines 316-337 of ComputeMap, one pixel: the channel scan over
c = 1 .. M-1 carrying (mx, imx), seeded with the class-0 value and
index 0, taking a new maximum only on a strictly greater value.
v is the current_ buffer and pix = h*W_+w the active pixel index;
generic in the value type as the layer is generic in Dtype. -/
def mapScan {α : Type} [LinearOrder α] (M : Nat) (v : Nat → α)
    (pix : Nat) : α × Nat :=
  (List.range (M - 1)).foldl
    (fun p j =>
      let x := v (pix * M + (j + 1))
      if p.1 < x then (x, j + 1) else p)
    (v (pix * M), 0)

/-- The memsets of ComputeMap (lines 303-304): zero the first n cells,
keep the rest. -/
def zeroFill {α : Type} [Zero α] (n : Nat) (f : Nat → α) : Nat → α :=
  fun idx => if idx < n then 0 else f idx

/-- Lines 297-344 of ComputeMap, restricted to the inference output
top[0]: after zero-filling the full padded extent M*padH*padW, every
active pixel (h, w) receives its M marginal values
current[(h*W_+w)*M_+c] at the channel-major positions
(c*top_height+h)*top_width+w.  topInf is the prior contents of the
image's slice of top[0]. -/
def decodeInf {α : Type} [Zero α] (M H W padH padW : Nat)
    (current topInf : Nat → α) : Nat → α :=
  writeMany (zeroFill (M * padH * padW) topInf)
    ((List.range H).flatMap fun h =>
      (List.range W).flatMap fun w =>
        (List.range M).map fun c =>
          ((c * padH + h) * padW + w, current ((h * W + w) * M + c)))

/-- Lines 297-344 of ComputeMap, restricted to the label output top[1]:
after zero-filling the padded extent padH*padW, every active pixel
(h, w) receives the winning channel index of its scan, cast to the
data type (line 341). -/
def decodeLabel {α : Type} [LinearOrder α] [Zero α] [NatCast α]
    (M H W padH padW : Nat) (current topMap : Nat → α) : Nat → α :=
  writeMany (zeroFill (padH * padW) topMap)
    ((List.range H).flatMap fun h =>
      (List.range W).map fun w =>
        (h * padW + w, (Nat.cast (mapScan M current (h * W + w)).2 : α)))

/- Concrete instances used by the claim theorems. -/

/-- Configuration with one bilateral kernel and no spatial kernel. -/
def cfgBilateralOnly : DenseCRFParam :=
  { maxIter := 10, posW := [], posXyStd := [],
    biW := [1], biXyStd := [1], biRgbStd := [1] }

/-- Configuration with one spatial kernel and no bilateral kernel. -/
def cfgSpatialOnly : DenseCRFParam :=
  { maxIter := 10, posW := [3], posXyStd := [3],
    biW := [], biXyStd := [], biRgbStd := [] }

/-- A two-input bottom vector: score tensor and dimension record only. -/
def twoBottoms : List Blob :=
  [{ num := 1, channels := 2, height := 4, width := 4 },
   { num := 1, channels := 2, height := 1, width := 1 }]

/-- Claim C2, counterexample.  With one bilateral kernel configured and
only two inputs, LayerSetUp does not fail: it returns the engine state
with has_image = false, so setup succeeds where the claim demands a
fatal failure. -/
theorem bilateral_without_image_setup_succeeds :
    (layerSetUp cfgBilateralOnly twoBottoms).map (fun s => s.hasImage) =
      some false := rfl

/-- Claim C2, amended.  With bilateral kernels configured but no
reference-image input, setup succeeds and records has_image = false;
the bilateral kernels are then silently ignored (the pairwise-function
builder constructs exactly the spatial potentials and no bilateral
one), and the per-batch Reshape fails instead because it
unconditionally reads the absent third input. -/
theorem bilateral_without_image_silently_ignored
    (p : DenseCRFParam) (bottom : List Blob)
    (h1 : p.posW.length = p.posXyStd.length)
    (h2 : p.biW.length = p.biXyStd.length)
    (h3 : p.biW.length = p.biRgbStd.length)
    ( _h4 : 0 < p.biW.length)
    (h5 : bottom.length = 2) :
    (layerSetUp p bottom).map (fun s => s.hasImage) = some false ∧
    (∀ (P : Type) (build : (Nat → ℝ) → Nat → Nat → ℝ → P) (im : Nat → ℝ),
      (layerSetUp p bottom).map
        (fun s => (setupPairwiseFunctions build s im).length) =
        some p.posW.length) ∧
    ((layerSetUp p bottom).bind fun s => reshape s bottom) = none := by
  have hcond : p.posW.length = p.posXyStd.length ∧
      p.biW.length = p.biXyStd.length ∧
      p.biW.length = p.biRgbStd.length ∧ 2 ≤ bottom.length :=
    ⟨h1, h2, h3, by omega⟩
  have hle : bottom.length ≤ 2 := by omega
  obtain ⟨b0, b1, rfl⟩ := List.length_eq_two.mp h5
  rw [layerSetUp, if_pos hcond, if_pos hle]
  refine ⟨rfl, ?_, ?_⟩
  · intro P build im
    simp only [Option.map_some', Option.some.injEq, setupPairwiseFunctions]
    simp [List.length_zip, h1]
  · by_cases hnum : b0.num = b1.num <;> simp [reshape, hnum]

/-- Claim C2, amended, witness at the bilateral-only configuration with
a two-input bottom. -/
theorem bilateral_without_image_silently_ignored_witness :
    (layerSetUp cfgBilateralOnly twoBottoms).map (fun s => s.hasImage) =
      some false ∧
    (∀ (P : Type) (build : (Nat → ℝ) → Nat → Nat → ℝ → P) (im : Nat → ℝ),
      (layerSetUp cfgBilateralOnly twoBottoms).map
        (fun s => (setupPairwiseFunctions build s im).length) = some 0) ∧
    ((layerSetUp cfgBilateralOnly twoBottoms).bind
      fun s => reshape s twoBottoms) = none :=
  bilateral_without_image_silently_ignored cfgBilateralOnly twoBottoms
    rfl rfl rfl (by decide) rfl

/-- Claim C4.  The code evaluated at the failing input: with no
bilateral kernel configured and exactly two inputs, setup succeeds with
has_image = false, but the per-batch Reshape does not complete: line 99
unconditionally reads bottom[2]->num(), which is out of bounds for a
two-element bottom vector (modelled as none), contradicting the claim
that reshape completes without accessing a third input. -/
theorem reshape_reads_absent_third_input :
    (layerSetUp cfgSpatialOnly twoBottoms).map (fun s => s.hasImage) =
      some false ∧
    ((layerSetUp cfgSpatialOnly twoBottoms).bind
      fun s => reshape s twoBottoms) = none :=
  ⟨rfl, rfl⟩

/- Claim C3 instances: a first batch with 4 classes on a 10 x 10 padded
extent sizes the buffers to 400 elements and 100 pixels; a second batch
with 1 class on a 20 x 20 padded extent reuses them (footprint 400 fits);
an image with active region 15 x 15 then fits the element capacity
(225 <= 400) but trips CHECK_LE(N_, map_element_) since 225 > 100. -/

/-- Three-input bottom for the first batch: 4-class 10 x 10 scores. -/
def c3bot1 : List Blob :=
  [{ num := 1, channels := 4, height := 10, width := 10 },
   { num := 1, channels := 2, height := 1, width := 1 },
   { num := 1, channels := 3, height := 10, width := 10 }]

/-- Three-input bottom for the second batch: 1-class 20 x 20 scores. -/
def c3bot2 : List Blob :=
  [{ num := 1, channels := 1, height := 20, width := 20 },
   { num := 1, channels := 2, height := 1, width := 1 },
   { num := 1, channels := 3, height := 20, width := 20 }]

/-- Engine state after setup with the bilateral configuration and the
two reshapes of the Claim C3 scenario. -/
def c3chain : Option CRFState :=
  ((layerSetUp cfgBilateralOnly c3bot1).bind fun s => reshape s c3bot1).bind
    fun s => reshape s c3bot2

/-- Claim C3, counterexample.  In the scenario above the engine aborts
on an image with active region 15 x 15 although its footprint
15*15*M = 225 fits the preallocated element capacity 400: the check
compares the pixel count against map_element_ = 100, which was recorded
under the earlier 4-class batch. -/
theorem abort_despite_fitting_footprint :
    c3chain.isSome = true ∧
    (c3chain.bind fun st => forwardImage st 15 15) = none ∧
    c3chain.map (fun st => decide (15 * 15 * st.M ≤ st.unaryElement)) =
      some true :=
  ⟨rfl, rfl, rfl⟩

/-- Claim C3, amended.  Per image, Forward aborts exactly when the
effective pixel count N_ = W_*H_ exceeds the stored pixel capacity
map_element_; a processed image never changes the capacities (the
mid-batch reallocation is commented out); and only under the additional
consistency assumption unary_element_ = map_element_ * M_ (which holds
when the current class count equals the one at the last reallocation)
with an active region inside the padded extent is this equivalent to
the claimed footprint test realHeight*realWidth*M > element capacity. -/
theorem forward_abort_characterization (st : CRFState) (realH realW : Nat) :
    (∀ st2, forwardImage st realH realW = some st2 →
      st2.unaryElement = st.unaryElement ∧ st2.mapElement = st.mapElement) ∧
    (forwardImage st realH realW = none ↔
      st.mapElement <
        (effectiveDims st realH realW).2 * (effectiveDims st realH realW).1) ∧
    (st.unaryElement = st.mapElement * st.M → 0 < st.M →
      realH ≤ st.padH → realW ≤ st.padW →
      (forwardImage st realH realW = none ↔
        st.unaryElement < realH * realW * st.M)) := by
  refine ⟨?_, ?_, ?_⟩
  · intro st2 h
    rw [forwardImage] at h
    split at h
    · cases h
      exact ⟨rfl, rfl⟩
    · cases h
  · simp only [forwardImage]
    split <;> rename_i hc
    · exact iff_of_false (Option.some_ne_none _) (not_lt.mpr hc)
    · exact iff_of_true rfl (lt_of_not_le hc)
  · intro hcons hM hH hW
    have hdim : (effectiveDims st realH realW).2 *
        (effectiveDims st realH realW).1 = realW * realH := by
      rw [effectiveDims]
      split <;> rename_i hc
      · have ha : st.padH = realH := Nat.le_antisymm hc.1 hH
        have hb : st.padW = realW := Nat.le_antisymm hc.2 hW
        simp [ha, hb]
      · rfl
    simp only [forwardImage]
    split <;> rename_i hc
    · rw [hdim] at hc
      refine iff_of_false (Option.some_ne_none _) (not_lt.mpr ?_)
      rw [hcons]
      calc realH * realW * st.M = realW * realH * st.M := by ring
        _ ≤ st.mapElement * st.M := Nat.mul_le_mul_right st.M hc
    · rw [hdim] at hc
      refine iff_of_true rfl ?_
      rw [hcons]
      calc st.mapElement * st.M < realW * realH * st.M :=
            (Nat.mul_lt_mul_right hM).mpr (lt_of_not_le hc)
        _ = realH * realW * st.M := by ring

/-- Claim C3, amended, witness: a state with consistent capacities
(18 = 9 * 2) and a 2 x 2 active region inside a 3 x 3 padded extent is
processed without aborting. -/
theorem forward_abort_characterization_witness :
    forwardImage
      { maxIter := 10, posW := [], posXyStd := [], biW := [],
        biXyStd := [], biRgbStd := [], hasImage := false,
        unaryElement := 18, mapElement := 9, num := 1, M := 2,
        padH := 3, padW := 3, H := 0, W := 0 } 2 2 ≠ none := by
  intro h
  have h3 := ((forward_abort_characterization
    { maxIter := 10, posW := [], posXyStd := [], biW := [],
      biXyStd := [], biRgbStd := [], hasImage := false,
      unaryElement := 18, mapElement := 9, num := 1, M := 2,
      padH := 3, padW := 3, H := 0, W := 0 } 2 2).2.2
    (by decide) (by decide) (by decide) (by decide)).mp h
  exact absurd h3 (by decide)

/-- Claim C8.  A successful Reshape grows the capacities exactly when
the padded footprint pad_height_*pad_width_*M_ strictly exceeds the
stored element capacity, and then to exactly that footprint (with the
pixel capacity set to the padded pixel count); otherwise it leaves both
capacities unchanged, so capacity never shrinks and a smaller or equal
footprint triggers no reallocation. -/
theorem reshape_capacity_growth (st : CRFState) (b0 b1 b2 : Blob)
    (st2 : CRFState) (h : reshape st [b0, b1, b2] = some st2) :
    (st.unaryElement < b0.height * b0.width * b0.channels →
      st2.unaryElement = b0.height * b0.width * b0.channels ∧
      st2.mapElement = b0.height * b0.width) ∧
    (b0.height * b0.width * b0.channels ≤ st.unaryElement →
      st2.unaryElement = st.unaryElement ∧
      st2.mapElement = st.mapElement) := by
  rw [reshape] at h
  simp only [List.getElem?_cons_zero, List.getElem?_cons_succ] at h
  split at h
  · split at h
    · split at h
      · cases h
        refine ⟨fun _ => ⟨rfl, rfl⟩, fun hle => absurd hle (by omega)⟩
      · cases h
        refine ⟨fun hlt => absurd hlt (by omega), fun _ => ⟨rfl, rfl⟩⟩
    · cases h
  · cases h

/-- Engine state after setup for the Claim C8 scenario (bilateral
configuration, reference image present). -/
def c8state0 : CRFState :=
  { maxIter := 10, posW := [], posXyStd := [],
    biW := [1], biXyStd := [1], biRgbStd := [1], hasImage := true,
    unaryElement := 0, mapElement := 0, num := 0, M := 0,
    padH := 0, padW := 0, H := 0, W := 0 }

/-- First batch of the Claim C8 scenario: 2 classes, 10 x 10 padded. -/
def c8bot1 : List Blob :=
  [{ num := 1, channels := 2, height := 10, width := 10 },
   { num := 1, channels := 2, height := 1, width := 1 },
   { num := 1, channels := 3, height := 10, width := 10 }]

/-- Second batch of the Claim C8 scenario: 2 classes, 5 x 5 padded. -/
def c8bot2 : List Blob :=
  [{ num := 1, channels := 2, height := 5, width := 5 },
   { num := 1, channels := 2, height := 1, width := 1 },
   { num := 1, channels := 3, height := 5, width := 5 }]

/-- Third batch of the Claim C8 scenario: 2 classes, 12 x 12 padded. -/
def c8bot3 : List Blob :=
  [{ num := 1, channels := 2, height := 12, width := 12 },
   { num := 1, channels := 2, height := 1, width := 1 },
   { num := 1, channels := 3, height := 12, width := 12 }]

/-- Engine state after the first reshape of the Claim C8 scenario. -/
def c8state1 : CRFState :=
  { c8state0 with num := 1, M := 2, padH := 10, padW := 10,
                  unaryElement := 200, mapElement := 100 }

/-- Engine state after the second reshape of the Claim C8 scenario. -/
def c8state2 : CRFState :=
  { c8state1 with num := 1, M := 2, padH := 5, padW := 5 }

/-- Claim C8, witness: batch padded sizes S1 = 10x10 with 2 classes
(footprint 200), then S2 = 5x5 (footprint 50), then S3 = 12x12
(footprint 288) produce capacities 200, 200, 288: exactly one
reallocation, triggered by S3 and not by S2. -/
theorem reshape_capacity_growth_witness :
    ((reshape c8state0 c8bot1).map fun s => (s.unaryElement, s.mapElement)) =
      some (200, 100) ∧
    (((reshape c8state0 c8bot1).bind fun s => reshape s c8bot2).map
      fun s => (s.unaryElement, s.mapElement)) = some (200, 100) ∧
    ((((reshape c8state0 c8bot1).bind fun s => reshape s c8bot2).bind
      fun s => reshape s c8bot3).map
      fun s => (s.unaryElement, s.mapElement)) = some (288, 144) := by
  refine ⟨rfl, ?_, rfl⟩
  have h := (reshape_capacity_growth c8state1
    { num := 1, channels := 2, height := 5, width := 5 }
    { num := 1, channels := 2, height := 1, width := 1 }
    { num := 1, channels := 3, height := 5, width := 5 }
    c8state2 rfl).2 (by decide)
  show (some c8state2).map (fun s => (s.unaryElement, s.mapElement)) =
    some (200, 100)
  rw [Option.map_some']
  rw [h.1, h.2]
  rfl

/- Solver lemmas shared by the inference claims. -/

/-- RunInference with zero iterations is StartInference alone. -/
theorem runInference_zero (M N : Nat) (ps : List Potential)
    (unary : Nat → ℝ) (st : SolverState) :
    runInference M N 0 ps unary st = startInference M N unary st := rfl

/-- RunInference peels its last iteration as one StepInference. -/
theorem runInference_succ (M N k : Nat) (ps : List Potential)
    (unary : Nat → ℝ) (st : SolverState) :
    runInference M N (k + 1) ps unary st =
      stepInference M N ps unary (runInference M N k ps unary st) := by
  simp only [runInference, List.range_succ, List.foldl_append,
    List.foldl_cons, List.foldl_nil]

/-- Every normalized value is non-negative. -/
theorem normVal_nonneg (M : Nat) (scale : ℝ) (b : Nat → ℝ) (i j : Nat) :
    0 ≤ normVal M scale b i j :=
  div_nonneg (Real.exp_nonneg _)
    (Finset.sum_nonneg fun _ _ => Real.exp_nonneg _)

/-- For a nonempty class set the normalized values of one pixel sum
to one. -/
theorem normVal_sum (M : Nat) (hM : 0 < M) (scale : ℝ) (b : Nat → ℝ)
    (i : Nat) : ∑ j ∈ Finset.range M, normVal M scale b i j = 1 := by
  have hpos : 0 < ∑ k ∈ Finset.range M,
      Real.exp (scale * b (i * M + k) - pixelMax M scale b i) :=
    Finset.sum_pos (fun _ _ => Real.exp_pos _)
      (Finset.nonempty_range_iff.mpr (Nat.pos_iff_ne_zero.mp hM))
  simp only [normVal]
  rw [← Finset.sum_div]
  exact div_self (ne_of_gt hpos)

/-- The cell i*M+j written by ExpAndNormalize holds the normalized
value of pixel i, class j. -/
theorem expAndNormalize_active (M N : Nat) (scale : ℝ) (inp out : Nat → ℝ)
    (i j : Nat) (hi : i < N) (hj : j < M) :
    expAndNormalize M N scale inp out (i * M + j) = normVal M scale inp i j := by
  have hM : 0 < M := by omega
  have hlt : i * M + j < N * M := by
    calc i * M + j < i * M + M := by omega
      _ = (i + 1) * M := by ring
      _ ≤ N * M := Nat.mul_le_mul_right M hi
  have hdiv : (i * M + j) / M = i := by
    rw [Nat.mul_comm i M, Nat.mul_add_div hM, Nat.div_eq_of_lt hj, Nat.add_zero]
  have hmod : (i * M + j) % M = j := by
    rw [Nat.mul_comm i M, Nat.mul_add_mod, Nat.mod_eq_of_lt hj]
  rw [expAndNormalize, if_pos hlt, hdiv, hmod]

/-- ExpAndNormalize leaves a per-pixel probability distribution in its
first N*M cells: entries are non-negative and each pixel's M entries
sum to one. -/
theorem expAndNormalize_distribution (M N : Nat) (scale : ℝ)
    (inp out : Nat → ℝ) (i j : Nat) (hi : i < N) (hj : j < M) :
    0 ≤ expAndNormalize M N scale inp out (i * M + j) ∧
    ∑ c ∈ Finset.range M, expAndNormalize M N scale inp out (i * M + c) = 1 := by
  have hM : 0 < M := by omega
  constructor
  · rw [expAndNormalize_active M N scale inp out i j hi hj]
    exact normVal_nonneg M scale inp i j
  · have hcg : ∀ c ∈ Finset.range M,
        expAndNormalize M N scale inp out (i * M + c) = normVal M scale inp i c :=
      fun c hc =>
        expAndNormalize_active M N scale inp out i c hi (Finset.mem_range.mp hc)
    rw [Finset.sum_congr rfl hcg]
    exact normVal_sum M hM scale inp i

/-- Claim C5.  The solver first sets current to softmax of the negated
unary energy; it performs exactly maxIter unconditional iterations,
each one a StepInference (negate the unary energy, fold every pairwise
potential in list order into next, then normalize into current); with
iteration count 0 the result is exactly StartInference - independent of
the potential list, so no pairwise kernel has any effect. -/
theorem solver_iteration_structure (M N : Nat) (ps : List Potential)
    (unary : Nat → ℝ) (st : SolverState) :
    runInference M N 0 ps unary st = startInference M N unary st ∧
    (runInference M N 0 ps unary st).current =
      expAndNormalize M N (-1) unary st.current ∧
    (∀ k, runInference M N (k + 1) ps unary st =
      stepInference M N ps unary (runInference M N k ps unary st)) :=
  ⟨runInference_zero M N ps unary st, rfl,
   fun k => runInference_succ M N k ps unary st⟩

/-- Claim C6.  After the initial normalization and after every
iteration, the current buffer holds a valid probability distribution
per active pixel: the M entries of pixel i are non-negative and sum to
one exactly (the floating-point tolerance vanishes in the real-number
model). -/
theorem marginals_probability_distribution (M N k : Nat)
    (ps : List Potential) (unary : Nat → ℝ) (st : SolverState)
    (i j : Nat) (hi : i < N) (hj : j < M) :
    0 ≤ (runInference M N k ps unary st).current (i * M + j) ∧
    ∑ c ∈ Finset.range M,
      (runInference M N k ps unary st).current (i * M + c) = 1 := by
  cases k with
  | zero =>
    exact expAndNormalize_distribution M N (-1) unary st.current i j hi hj
  | succ n =>
    rw [runInference_succ]
    exact expAndNormalize_distribution M N 1 _ _ i j hi hj

/-- Claim C6, witness at two classes, one pixel, the initial state. -/
theorem marginals_probability_distribution_witness :
    0 ≤ (runInference 2 1 0 [] (fun _ => 0)
          ⟨fun _ => 0, fun _ => 0, fun _ => 0⟩).current (0 * 2 + 1) ∧
    ∑ c ∈ Finset.range 2,
      (runInference 2 1 0 [] (fun _ => 0)
        ⟨fun _ => 0, fun _ => 0, fun _ => 0⟩).current (0 * 2 + c) = 1 :=
  marginals_probability_distribution 2 1 0 [] (fun _ => 0)
    ⟨fun _ => 0, fun _ => 0, fun _ => 0⟩ 0 1 (by decide) (by decide)

/-- The per-pixel max only reads the M cells of its pixel. -/
theorem pixelMax_congr (M : Nat) (scale : ℝ) (b1 b2 : Nat → ℝ) (i : Nat)
    (hM : 0 < M) (h : ∀ t, t < M → b1 (i * M + t) = b2 (i * M + t)) :
    pixelMax M scale b1 i = pixelMax M scale b2 i := by
  have h0 : b1 (i * M) = b2 (i * M) := by simpa using h 0 hM
  rw [pixelMax, pixelMax, h0]
  exact List.foldl_ext _ _ _ fun a j hj => by
    rw [h (j + 1) (by have := List.mem_range.mp hj; omega)]

/-- The normalized value of pixel i, class j < M only reads the M cells
of its pixel. -/
theorem normVal_congr (M : Nat) (scale : ℝ) (b1 b2 : Nat → ℝ) (i j : Nat)
    (hj : j < M) (h : ∀ t, t < M → b1 (i * M + t) = b2 (i * M + t)) :
    normVal M scale b1 i j = normVal M scale b2 i j := by
  have hM : 0 < M := by omega
  rw [normVal, normVal, h j hj, pixelMax_congr M scale b1 b2 i hM h]
  congr 1
  exact Finset.sum_congr rfl fun k hk => by
    rw [h k (Finset.mem_range.mp hk)]

/-- ExpAndNormalize only reads its input below N*M; the untouched tail
comes from out on both sides. -/
theorem expAndNormalize_congr (M N : Nat) (scale : ℝ)
    (inp1 inp2 out : Nat → ℝ)
    (h : ∀ t, t < N * M → inp1 t = inp2 t) :
    expAndNormalize M N scale inp1 out = expAndNormalize M N scale inp2 out := by
  funext idx
  rw [expAndNormalize, expAndNormalize]
  split <;> rename_i hidx
  · have hM : 0 < M := by
      rcases Nat.eq_zero_or_pos M with h0 | h0
      · rw [h0, Nat.mul_zero] at hidx; omega
      · exact h0
    have hi : idx / M < N := (Nat.div_lt_iff_lt_mul hM).mpr hidx
    refine normVal_congr M scale inp1 inp2 (idx / M) (idx % M)
      (Nat.mod_lt idx hM) fun t ht => h _ ?_
    calc idx / M * M + t < idx / M * M + M := by omega
      _ = (idx / M + 1) * M := by ring
      _ ≤ N * M := Nat.mul_le_mul_right M hi
  · rfl

/-- Claim C7.  The SSE build of the unary-negation step writes the same
values as the scalar build on every cell below N_*M_ (the SSE loop also
negates up to three trailing pad cells, which the normalization never
reads), so the normalization that follows produces an identical current
buffer under either build. -/
theorem sse_scalar_negation_equivalent (M N : Nat)
    (unary next1 next2 cur : Nat → ℝ) :
    (∀ k, k < N * M →
      negUnarySSE (N * M) unary next1 k = negUnaryScalar (N * M) unary next2 k) ∧
    expAndNormalize M N 1 (negUnarySSE (N * M) unary next1) cur =
      expAndNormalize M N 1 (negUnaryScalar (N * M) unary next2) cur := by
  have hagree : ∀ k, k < N * M →
      negUnarySSE (N * M) unary next1 k = negUnaryScalar (N * M) unary next2 k := by
    intro k hk
    have hsse : k < 4 * ((N * M - 1) / 4 + 1) := by omega
    rw [negUnarySSE, negUnaryScalar, if_pos hsse, if_pos hk]
  exact ⟨hagree, expAndNormalize_congr M N 1 _ _ cur hagree⟩

/-- Claim C7, witness at N*M = 4 with zero buffers, cell 3. -/
theorem sse_scalar_negation_equivalent_witness :
    negUnarySSE (2 * 2) (fun _ => 0) (fun _ => 0) 3 =
      negUnaryScalar (2 * 2) (fun _ => 0) (fun _ => 0) 3 :=
  (sse_scalar_negation_equivalent 2 2 (fun _ => 0) (fun _ => 0)
    (fun _ => 0) (fun _ => 0)).1 3 (by decide)

/-- Claim C1.  The code evaluated at the failing input (2 classes,
padded extent 2 x 2, active region 2 x 1, all scores zero, zeroed
buffers): the writer of SetupUnaryEnergy uses the padded row stride
pad_width_, so the cell at the solver's active-layout index
(h*realWidth+w)*M+c = (1*1+0)*2+0 = 2 is never written and keeps its
prior contents 0, while the claim requires it to hold the negated log
softmax probability of pixel (1,0), which is -log(1/2) = log 2. -/
theorem unary_write_read_stride_mismatch :
    setupUnaryEnergy 2 2 1 2 2 (fun _ => 0) (fun _ => 0) ((1 * 1 + 0) * 2 + 0) ≠
      -Real.log (normProb 2 (2 * 2) (fun _ => 0) 0 (1 * 2 + 0)) := by
  have hL : setupUnaryEnergy 2 2 1 2 2 (fun _ => 0) (fun _ => 0)
      ((1 * 1 + 0) * 2 + 0) = 0 := by
    norm_num [setupUnaryEnergy, List.range_succ, writeMany, writeCell]
  have hR : normProb 2 (2 * 2) (fun _ => 0) 0 (1 * 2 + 0) = 1 / 2 := by
    norm_num [normProb, scaleMax, List.range_succ, Finset.sum_range_succ,
      Real.exp_zero]
  intro h
  rw [hL, hR] at h
  have hneg : Real.log (1 / 2) < 0 :=
    Real.log_neg (by norm_num) (by norm_num)
  have hz : Real.log (1 / 2) = 0 := by linarith
  exact absurd hz (ne_of_lt hneg)

/-- Uniqueness of the row-major decomposition a*s+x with x < s. -/
theorem flat_index_inj (s a b x y : Nat) (hx : x < s) (hy : y < s)
    (h : a * s + x = b * s + y) : a = b ∧ x = y := by
  have hs : 0 < s := by omega
  have ha : (a * s + x) / s = a := by
    rw [Nat.mul_comm a s, Nat.mul_add_div hs, Nat.div_eq_of_lt hx, Nat.add_zero]
  have hb : (b * s + y) / s = b := by
    rw [Nat.mul_comm b s, Nat.mul_add_div hs, Nat.div_eq_of_lt hy, Nat.add_zero]
  have hab : a = b := by rw [← ha, ← hb, h]
  subst hab
  exact ⟨rfl, by omega⟩

/-- Claim C9.  When the active region lies inside the padded extent,
every cell of the decoded outputs at a position outside the active
rectangle is exactly zero: ComputeMap zero-fills both outputs over the
full padded extent and its loop writes only positions with h < H_ and
w < W_. -/
theorem outputs_zero_outside_active_region {α : Type} [LinearOrder α]
    [Zero α] [NatCast α] (M H W padH padW : Nat)
    (current topInf topMap : Nat → α) (h w c : Nat)
    (hh : h < padH) (hw : w < padW) (hc : c < M)
    (hH : H ≤ padH) (hW : W ≤ padW) (hout : H ≤ h ∨ W ≤ w) :
    decodeInf M H W padH padW current topInf ((c * padH + h) * padW + w) = 0 ∧
    decodeLabel M H W padH padW current topMap (h * padW + w) = 0 := by
  constructor
  · have hnm : ∀ p ∈ ((List.range H).flatMap fun h1 =>
        (List.range W).flatMap fun w1 =>
          (List.range M).map fun c1 =>
            ((c1 * padH + h1) * padW + w1,
             current ((h1 * W + w1) * M + c1))),
        p.1 ≠ (c * padH + h) * padW + w := by
      intro p hp hpe
      simp only [List.mem_flatMap, List.mem_map, List.mem_range] at hp
      obtain ⟨h1, hh1, w1, hw1, c1, hc1, rfl⟩ := hp
      simp only at hpe
      obtain ⟨hrow, hcol⟩ := flat_index_inj padW (c1 * padH + h1)
        (c * padH + h) w1 w (by omega) hw hpe
      obtain ⟨hcc, hhh⟩ := flat_index_inj padH c1 c h1 h (by omega) hh hrow
      omega
    have hbound : (c * padH + h) * padW + w < M * padH * padW := by
      have h1 : c * padH + h < M * padH := by
        calc c * padH + h < c * padH + padH := by omega
          _ = (c + 1) * padH := by ring
          _ ≤ M * padH := Nat.mul_le_mul_right padH hc
      calc (c * padH + h) * padW + w < (c * padH + h) * padW + padW := by omega
        _ = (c * padH + h + 1) * padW := by ring
        _ ≤ M * padH * padW := Nat.mul_le_mul_right padW (by omega)
    rw [decodeInf, writeMany_not_mem _ _ _ hnm, zeroFill, if_pos hbound]
  · have hnm : ∀ p ∈ ((List.range H).flatMap fun h1 =>
        (List.range W).map fun w1 =>
          (h1 * padW + w1,
           (Nat.cast (mapScan M current (h1 * W + w1)).2 : α))),
        p.1 ≠ h * padW + w := by
      intro p hp hpe
      simp only [List.mem_flatMap, List.mem_map, List.mem_range] at hp
      obtain ⟨h1, hh1, w1, hw1, rfl⟩ := hp
      simp only at hpe
      obtain ⟨hhh, hcc⟩ := flat_index_inj padW h1 h w1 w (by omega) hw hpe
      omega
    have hbound : h * padW + w < padH * padW := by
      calc h * padW + w < h * padW + padW := by omega
        _ = (h + 1) * padW := by ring
        _ ≤ padH * padW := Nat.mul_le_mul_right padW (by omega)
    rw [decodeLabel, writeMany_not_mem _ _ _ hnm, zeroFill, if_pos hbound]

/-- Claim C9, witness: a 1 x 1 active region inside a 2 x 2 padded
extent leaves position (1,1) zero in both outputs. -/
theorem outputs_zero_outside_active_region_witness :
    decodeInf 1 1 1 2 2 (fun _ => (0 : ℚ)) (fun _ => 0)
      ((0 * 2 + 1) * 2 + 1) = 0 ∧
    decodeLabel 1 1 1 2 2 (fun _ => (0 : ℚ)) (fun _ => 0) (1 * 2 + 1) = 0 :=
  outputs_zero_outside_active_region 1 1 1 2 2 (fun _ => 0) (fun _ => 0)
    (fun _ => 0) 1 1 0 (by decide) (by decide) (by decide) (by decide)
    (by decide) (Or.inl (by decide))

/-- One step of the channel scan of ComputeMap (lines 327-336): take
class j+1 as the new maximum only if it is strictly greater. -/
def mapScanStep {α : Type} [LinearOrder α] (v : Nat → α) (pix M : Nat)
    (p : α × Nat) (j : Nat) : α × Nat :=
  let x := v (pix * M + (j + 1))
  if p.1 < x then (x, j + 1) else p

/-- Invariant of the channel scan: after folding classes 1..n the pair
(mx, imx) satisfies imx ≤ n, mx is the value at imx, mx dominates all
classes up to n, and every class strictly below imx is strictly
smaller - so imx is the least maximizer of the prefix. -/
theorem mapScanStep_fold_spec {α : Type} [LinearOrder α] (v : Nat → α)
    (pix M : Nat) : ∀ n : Nat,
    ((List.range n).foldl (mapScanStep v pix M) (v (pix * M), 0)).2 ≤ n ∧
    ((List.range n).foldl (mapScanStep v pix M) (v (pix * M), 0)).1 =
      v (pix * M +
        ((List.range n).foldl (mapScanStep v pix M) (v (pix * M), 0)).2) ∧
    (∀ c, c ≤ n → v (pix * M + c) ≤
      ((List.range n).foldl (mapScanStep v pix M) (v (pix * M), 0)).1) ∧
    (∀ c, c < ((List.range n).foldl (mapScanStep v pix M) (v (pix * M), 0)).2 →
      v (pix * M + c) <
        ((List.range n).foldl (mapScanStep v pix M) (v (pix * M), 0)).1) := by
  intro n
  induction n with
  | zero =>
    refine ⟨Nat.le_refl 0, by simp, ?_, ?_⟩
    · intro c hc
      have hc0 : c = 0 := Nat.le_zero.mp hc
      subst hc0
      simp
    · intro c hc
      exact absurd hc (Nat.not_lt_zero c)
  | succ n ih =>
    obtain ⟨ih1, ih2, ih3, ih4⟩ := ih
    rw [List.range_succ, List.foldl_append, List.foldl_cons, List.foldl_nil]
    set r := (List.range n).foldl (mapScanStep v pix M) (v (pix * M), 0)
      with hr
    rw [mapScanStep]
    split <;> rename_i hlt
    · refine ⟨Nat.le_refl (n + 1), rfl, ?_, ?_⟩
      · intro c hc
        by_cases hcn : c ≤ n
        · exact le_of_lt (lt_of_le_of_lt (ih3 c hcn) hlt)
        · have hce : c = n + 1 := by omega
          subst hce
          exact le_refl _
      · intro c hc
        have hcn : c ≤ n := by omega
        exact lt_of_le_of_lt (ih3 c hcn) hlt
    · refine ⟨Nat.le_trans ih1 (Nat.le_succ n), ih2, ?_, ih4⟩
      intro c hc
      by_cases hcn : c ≤ n
      · exact ih3 c hcn
      · have hce : c = n + 1 := by omega
        subst hce
        exact not_lt.mp hlt

/-- The nodup property of the label-map write indices: with W inside
the padded width, the active positions h*padW+w are pairwise
distinct. -/
theorem label_fst_nodup {α : Type} (H W padW : Nat) (hW : W ≤ padW)
    (val : Nat → Nat → α) :
    (((List.range H).flatMap fun h1 =>
      (List.range W).map fun w1 => (h1 * padW + w1, val h1 w1)).map
        Prod.fst).Nodup := by
  rw [List.map_flatMap]
  simp only [List.map_map]
  rw [List.nodup_flatMap]
  constructor
  · intro h1 _
    refine List.Nodup.map_on ?_ (List.nodup_range W)
    intro x hx y hy hxy
    simp only [Function.comp] at hxy
    omega
  · refine (List.pairwise_lt_range H).imp ?_
    intro a b hab x hx1 hx2
    simp only [Function.comp, List.mem_map, List.mem_range] at hx1 hx2
    obtain ⟨w1, hw1, rfl⟩ := hx1
    obtain ⟨w2, hw2, heq⟩ := hx2
    obtain ⟨hba, -⟩ := flat_index_inj padW b a w2 w1 (by omega) (by omega) heq
    omega

/-- Claim C10.  For every active pixel the label written into the label
map is the channel-scan result, and that result is the smallest class
index attaining the maximal marginal value at the pixel: it is a
maximizer over all M classes, and every strictly smaller index carries
a strictly smaller value (the scan updates only on strictly greater
values, so ties keep the lower index). -/
theorem label_is_least_argmax {α : Type} [LinearOrder α] [Zero α]
    [NatCast α] (M H W padH padW : Nat) (current topMap : Nat → α)
    (h w : Nat) (hM : 0 < M) (hh : h < H) (hw : w < W)
    ( _hH : H ≤ padH) (hW : W ≤ padW) :
    decodeLabel M H W padH padW current topMap (h * padW + w) =
      Nat.cast (mapScan M current (h * W + w)).2 ∧
    (mapScan M current (h * W + w)).2 < M ∧
    (∀ c, c < M → current ((h * W + w) * M + c) ≤
      current ((h * W + w) * M + (mapScan M current (h * W + w)).2)) ∧
    (∀ c, c < (mapScan M current (h * W + w)).2 →
      current ((h * W + w) * M + c) <
        current ((h * W + w) * M + (mapScan M current (h * W + w)).2)) := by
  have hfold : mapScan M current (h * W + w) =
      (List.range (M - 1)).foldl (mapScanStep current (h * W + w) M)
        (current ((h * W + w) * M), 0) := rfl
  obtain ⟨hs1, hs2, hs3, hs4⟩ :=
    mapScanStep_fold_spec current (h * W + w) M (M - 1)
  rw [← hfold] at hs1 hs2 hs3 hs4
  refine ⟨?_, by omega, ?_, ?_⟩
  · have hmem : ((h * padW + w),
        (Nat.cast (mapScan M current (h * W + w)).2 : α)) ∈
        ((List.range H).flatMap fun h1 =>
          (List.range W).map fun w1 =>
            (h1 * padW + w1,
             (Nat.cast (mapScan M current (h1 * W + w1)).2 : α))) := by
      simp only [List.mem_flatMap, List.mem_map, List.mem_range]
      exact ⟨h, hh, w, hw, rfl⟩
    exact writeMany_mem _ _ _ _
      (label_fst_nodup H W padW hW
        (fun h1 w1 => (Nat.cast (mapScan M current (h1 * W + w1)).2 : α)))
      hmem
  · intro c hc
    rw [← hs2]
    exact hs3 c (by omega)
  · intro c hc
    rw [← hs2]
    exact hs4 c hc

/-- Claim C10, witness: a pixel with tied maximal values 5, 5, 3 over
three classes is labelled with the lower index 0. -/
theorem label_is_least_argmax_witness :
    decodeLabel 3 1 1 1 1
        (fun k => if k = 0 then (5 : ℚ) else if k = 1 then 5 else 3)
        (fun _ => 0) (0 * 1 + 0) =
      Nat.cast (mapScan 3
        (fun k => if k = 0 then (5 : ℚ) else if k = 1 then 5 else 3)
        (0 * 1 + 0)).2 ∧
    (mapScan 3 (fun k => if k = 0 then (5 : ℚ) else if k = 1 then 5 else 3)
      (0 * 1 + 0)).2 = 0 := by
  have hth := label_is_least_argmax 3 1 1 1 1
    (fun k => if k = 0 then (5 : ℚ) else if k = 1 then 5 else 3)
    (fun _ => 0) 0 0 (by decide) (by decide) (by decide) (by decide)
    (by decide)
  exact ⟨hth.1, by decide⟩

end DenseCRF
